import Mathlib

/-!
# Verification of the PardusAI memory store, embedding worker, retriever and
  database manager

Shallow embedding of the TypeScript sources
(`src/database.ts`, `src/embeddings.ts`, `src/utils/embeddingQueue.ts`,
`src/databaseManager.ts`) into Lean 4, together with theorems settling the
frozen claims about the natural-language specification.

Modelling conventions:
* JavaScript numbers are modelled by an arbitrary `LinearOrderedField α`
  (theorems that need `Math.sqrt` instantiate `α := ℝ` with `Real.sqrt`;
  executable witnesses instantiate `α := ℚ`).
* `Math.sqrt` is passed as an explicit function argument where the source
  calls it, since floating point square root has no exact Lean counterpart.
* `Date.now()` results and the randomly generated ids are passed in as
  explicit arguments (`now`, fresh id strings).
* Code that `throw`s is modelled with `Except String`; `async` functions
  whose external calls matter are parameterized by the call result.
* JavaScript `Array.prototype.sort` (stable since ES2019) with comparator
  `(a, b) => b.combinedScore - a.combinedScore` is modelled by the stable
  `List.mergeSort` with the Boolean order `b.combinedScore ≤ a.combinedScore`.
-/

namespace PardusAI

/-- The `embeddingStatus` field of a record:
`'pending' | 'processing' | 'completed' | 'failed'` (`database.ts`). -/
inductive EmbeddingStatus where
  | pending
  | processing
  | completed
  | failed
deriving DecidableEq, Repr

/-- `MemoryRecord` from `database.ts`: `embedding : number[] | null` is
`Option (List α)`, `embeddedAt : number | null` is `Option α`. -/
structure MemoryRecord (α : Type) where
  id : String
  time : α
  imageUrl : String
  description : String
  embedding : Option (List α)
  embeddingStatus : EmbeddingStatus
  createdAt : α
  embeddedAt : Option α
deriving DecidableEq, Repr

/-- `DatabaseState` from `database.ts`. -/
structure DatabaseState (α : Type) where
  memories : List (MemoryRecord α)
  version : String
deriving DecidableEq, Repr

variable {α : Type}

/-- The state the `MemoryDatabase` constructor installs. -/
def emptyState : DatabaseState α :=
  { memories := [], version := "1.0.0" }

/-- `MemoryDatabase.initialize`: reads the backing file; on `ENOENT`
(modelled by `none`) it keeps (and persists) the fresh empty state, otherwise
it adopts the parsed file content unchanged.  Any other read failure
propagates and no state is produced, so it does not appear here. -/
def initDb (file : Option (DatabaseState α)) : DatabaseState α :=
  match file with
  | some s => s
  | none => emptyState

/-- The record built by `MemoryDatabase.addMemory` (status `'pending'`,
no embedding, `time = createdAt = Date.now()`). -/
def mkPendingRecord (id : String) (now : α) (imageUrl description : String) :
    MemoryRecord α :=
  { id := id, time := now, imageUrl := imageUrl, description := description
    embedding := none, embeddingStatus := .pending, createdAt := now
    embeddedAt := none }

/-- `MemoryDatabase.addMemory`: pushes a fresh pending record.  The generated
id and `Date.now()` are passed in. -/
def addMemory (id : String) (now : α) (imageUrl description : String)
    (s : DatabaseState α) : DatabaseState α :=
  { s with memories := s.memories ++ [mkPendingRecord id now imageUrl description] }

/-- In-place mutation of the object returned by an
`array.find(x => x.id === id)`: the first element whose key matches is
replaced by `f` of it; all other elements are untouched. -/
def updateFirst {β : Type} (idOf : β → String) (id : String) (f : β → β) :
    List β → List β
  | [] => []
  | x :: xs => if idOf x = id then f x :: xs else x :: updateFirst idOf id f xs

/-- `updateFirst` on memory records, keyed by `MemoryRecord.id`. -/
def updateFirstMem (id : String) (f : MemoryRecord α → MemoryRecord α)
    (l : List (MemoryRecord α)) : List (MemoryRecord α) :=
  updateFirst (·.id) id f l

/-- `MemoryDatabase.updateEmbedding`: throws when no record has the id;
otherwise sets `embedding`, `embeddingStatus := 'completed'` and
`embeddedAt := Date.now()` on the found record, in one mutation. -/
def updateEmbedding (id : String) (emb : List α) (now : α)
    (s : DatabaseState α) : Except String (DatabaseState α) :=
  match s.memories.find? (fun m => m.id == id) with
  | none => .error ("Memory with id " ++ id ++ " not found")
  | some _ => .ok { s with
      memories := updateFirstMem id
        (fun m => { m with embedding := some emb, embeddingStatus := .completed
                           embeddedAt := some now }) s.memories }

/-- `MemoryDatabase.markEmbeddingFailed`: sets the status of the found record
to `'failed'`; a missing id is silently ignored. -/
def markEmbeddingFailed (id : String) (s : DatabaseState α) : DatabaseState α :=
  { s with memories :=
      (updateFirstMem id (fun m => { m with embeddingStatus := .failed })
        s.memories) }

/-- `MemoryDatabase.markEmbeddingProcessing`: sets the status of the found
record to `'processing'`; a missing id is silently ignored. -/
def markEmbeddingProcessing (id : String) (s : DatabaseState α) : DatabaseState α :=
  { s with memories :=
      (updateFirstMem id (fun m => { m with embeddingStatus := .processing })
        s.memories) }

/-- `MemoryDatabase.getEmbeddedMemories`: records with
`embeddingStatus === 'completed' && embedding !== null`. -/
def getEmbeddedMemories (s : DatabaseState α) : List (MemoryRecord α) :=
  s.memories.filter
    (fun m => m.embeddingStatus == .completed && m.embedding.isSome)

/-- `MemoryDatabase.getPendingMemories`: records with
`embeddingStatus === 'pending'`. -/
def getPendingMemories (s : DatabaseState α) : List (MemoryRecord α) :=
  s.memories.filter (fun m => m.embeddingStatus == .pending)

/-- `MemoryDatabase.getMemory`. -/
def getMemory (id : String) (s : DatabaseState α) : Option (MemoryRecord α) :=
  s.memories.find? (fun m => m.id == id)

/-! ## Retriever (`embeddings.ts`) -/

/-- The running sum `for (i) { acc += a[i] * b[i] }` of `cosineSimilarity`
(used for the dot product and for both squared norms; after the length guard
the two index ranges coincide, so `zipWith` is exact). -/
def sumProd [LinearOrderedField α] (a b : List α) : α :=
  (List.zipWith (fun x y => x * y) a b).sum

/-- The value computed by `cosineSimilarity` once the length guard has
passed: `dot / (normA * normB)`, or `0` when either norm is zero.
`sqrt` stands for `Math.sqrt`. -/
def cosValue [LinearOrderedField α] (sqrt : α → α) (a b : List α) : α :=
  let dotProduct := sumProd a b
  let normA := sqrt (sumProd a a)
  let normB := sqrt (sumProd b b)
  if normA = 0 ∨ normB = 0 then 0 else dotProduct / (normA * normB)

/-- `cosineSimilarity` from `embeddings.ts`: throws on a length mismatch,
returns `0` instead of raising when either vector has zero norm. -/
def cosineSimilarity [LinearOrderedField α] (sqrt : α → α) (a b : List α) : Except String α :=
  if a.length ≠ b.length then .error "Vectors must have the same length"
  else .ok (cosValue sqrt a b)

/-- One element of the intermediate `results` array of `retrieveTopK`:
the record, its raw cosine similarity, and the recency-penalized score. -/
structure ScoredMemory (α : Type) where
  memory : MemoryRecord α
  similarity : α
  combinedScore : α
deriving DecidableEq, Repr

/-- One element of the final result of `retrieveTopK`: the record and its
raw similarity (the combined score is dropped). -/
structure RetrievalResult (α : Type) where
  memory : MemoryRecord α
  similarity : α
deriving DecidableEq, Repr

/-- `hoursOld = (now - memory.time) / (1000 * 60 * 60)`. -/
def hoursOld [LinearOrderedField α] (now t : α) : α :=
  (now - t) / (1000 * 60 * 60)

/-- JavaScript's `array.map(fn)` where `fn` can throw: elements are mapped
left to right and the first exception aborts the whole map. -/
def mapExcept {β γ : Type} (f : β → Except String γ) :
    List β → Except String (List γ)
  | [] => .ok []
  | x :: xs =>
      match f x with
      | .error e => .error e
      | .ok y =>
          match mapExcept f xs with
          | .error e => .error e
          | .ok ys => .ok (y :: ys)

/-- The body of the `.map` inside `retrieveTopK`: raw similarity via
`cosineSimilarity` (which can throw) and
`combinedScore = similarity - 0.01 * hoursOld`. -/
def scoreMemory [LinearOrderedField α] (sqrt : α → α) (queryEmbedding : List α) (now : α)
    (m : MemoryRecord α) : Except String (ScoredMemory α) :=
  match cosineSimilarity sqrt queryEmbedding (m.embedding.getD []) with
  | .error e => .error e
  | .ok semanticSimilarity =>
      .ok { memory := m, similarity := semanticSimilarity
            combinedScore :=
              semanticSimilarity - (1 / 100) * hoursOld now m.time }

/-- The comparator `(a, b) => b.combinedScore - a.combinedScore` of the
JavaScript stable sort, as the Boolean order "`a` may come before `b`". -/
def scoreLE [LinearOrderedField α] (a b : ScoredMemory α) : Bool :=
  decide (b.combinedScore ≤ a.combinedScore)

/-- `retrieveTopK` from `embeddings.ts`.  `embedResult` is the outcome of the
`generateEmbedding(query)` provider call (an `Except` since the call can
fail); when the candidate set is empty the function returns `[]` before that
call, so the result cannot depend on `embedResult` there. -/
def retrieveTopK [LinearOrderedField α] (sqrt : α → α) (embedResult : Except String (List α))
    (db : DatabaseState α) (now : α) (k : Nat) :
    Except String (List (RetrievalResult α)) :=
  let embeddedMemories := getEmbeddedMemories db
  if embeddedMemories.length = 0 then .ok []
  else
    match embedResult with
    | .error e => .error e
    | .ok queryEmbedding =>
        match mapExcept (scoreMemory sqrt queryEmbedding now)
            (embeddedMemories.filter (fun m => m.embedding.isSome)) with
        | .error e => .error e
        | .ok results =>
            let sorted := results.mergeSort scoreLE
            .ok ((sorted.take k).map
              (fun r => { memory := r.memory, similarity := r.similarity }))

/-! ## Embedding worker (`utils/embeddingQueue.ts`) -/

/-- One pass of `EmbeddingQueue.processNextBatch` (the `isProcessing` guard
only matters under concurrency; the loop itself is strictly sequential).
`embed` is the `generateEmbedding` provider: description to vector or
failure. -/
def processNextBatch (embed : String → Except String (List α)) (now : α)
    (db : DatabaseState α) : DatabaseState α :=
  match getPendingMemories db with
  | [] => db
  | memory :: _ =>
      let db1 := markEmbeddingProcessing memory.id db
      match embed memory.description with
      | .error _ => markEmbeddingFailed memory.id db1
      | .ok emb =>
          match updateEmbedding memory.id emb now db1 with
          | .ok db2 => db2
          | .error _ => markEmbeddingFailed memory.id db1

/-- `k` iterations of the worker loop. -/
def iterateSteps (embed : String → Except String (List α)) (now : α) :
    Nat → DatabaseState α → DatabaseState α
  | 0, db => db
  | k + 1, db => processNextBatch embed now (iterateSteps embed now k db)

/-- The net effect of one worker pass on the record it selects:
`markEmbeddingProcessing` then either `updateEmbedding` (on provider
success) or `markEmbeddingFailed` (on provider failure). -/
def finalizeRec (embed : String → Except String (List α)) (now : α)
    (r : MemoryRecord α) : MemoryRecord α :=
  match embed r.description with
  | .ok e => { r with embedding := some e, embeddingStatus := .completed
                      embeddedAt := some now }
  | .error _ => { r with embeddingStatus := .failed }

/-! ## Database manager (`databaseManager.ts`) -/

/-- `DatabaseMetadata` from `databaseManager.ts`. -/
structure DatabaseMetadata (α : Type) where
  id : String
  name : String
  filePath : String
  createdAt : α
  lastAccessedAt : α
deriving DecidableEq, Repr

/-- `DatabaseManagerState` from `databaseManager.ts`. -/
structure DatabaseManagerState (α : Type) where
  databases : List (DatabaseMetadata α)
  activeDatabase : Option String
  version : String
deriving DecidableEq, Repr

/-- A `DatabaseManager` instance: its persisted registry state plus the keys
of the `loadedDatabases` cache and the `dataDir` constructor argument. -/
structure Manager (α : Type) where
  dataDir : String
  state : DatabaseManagerState α
  loaded : List String
deriving DecidableEq, Repr

/-- Mutation of the metadata object returned by
`this.state.databases.find(d => d.id === id)` (first match). -/
def updateFirstMeta (id : String)
    (f : DatabaseMetadata α → DatabaseMetadata α)
    (l : List (DatabaseMetadata α)) : List (DatabaseMetadata α) :=
  updateFirst (·.id) id f l

/-- `DatabaseManager.createDatabase`: registers fresh metadata (the generated
id and `Date.now()` are passed in), caches the initialized store, and makes
it active when nothing was active.  Returns the new id. -/
def createDatabase (name newId : String) (now : α) (m : Manager α) :
    Manager α × String :=
  let filePath := m.dataDir ++ "/" ++ newId ++ ".json"
  let metadata : DatabaseMetadata α :=
    { id := newId, name := name, filePath := filePath
      createdAt := now, lastAccessedAt := now }
  let active := match m.state.activeDatabase with
    | none => some newId
    | some a => some a
  ({ m with
      state := { m.state with
        databases := m.state.databases ++ [metadata]
        activeDatabase := active }
      loaded := m.loaded ++ [newId] }, newId)

/-- `DatabaseManager.initialize`.  `file` is the parsed registry file
(`none` on `ENOENT`, in which case a `'default'` store is created);
`fileExists` is the `fs.access` check used to prune entries whose backing
store file is missing; afterwards, if nothing is active and some entry
remains, the first entry becomes active. -/
def initManager (dataDir : String) (file : Option (DatabaseManagerState α))
    (fileExists : String → Bool) (newId : String) (now : α) : Manager α :=
  let m0 : Manager α :=
    { dataDir := dataDir
      state := { databases := [], activeDatabase := none, version := "1.0.0" }
      loaded := [] }
  let m1 := match file with
    | some s => { m0 with state := s }
    | none => (createDatabase "default" newId now m0).1
  let pruned := m1.state.databases.filter (fun d => fileExists d.filePath)
  let m2 := { m1 with state := { m1.state with databases := pruned } }
  match m2.state.activeDatabase with
  | some _ => m2
  | none =>
      match pruned with
      | [] => m2
      | d :: _ =>
          { m2 with state := { m2.state with activeDatabase := some d.id } }

/-- `DatabaseManager.switchDatabase`: `false` on unknown id, otherwise sets
the active id and the entry's `lastAccessedAt`. -/
def switchDatabase (id : String) (now : α) (m : Manager α) :
    Manager α × Bool :=
  match m.state.databases.find? (fun d => d.id == id) with
  | none => (m, false)
  | some _ =>
      ({ m with state := { m.state with
          activeDatabase := some id
          databases :=
            (updateFirstMeta id (fun d => { d with lastAccessedAt := now })
              m.state.databases) } }, true)

/-- `DatabaseManager.renameDatabase`: `false` on unknown id, otherwise
updates the display name only. -/
def renameDatabase (id newName : String) (m : Manager α) :
    Manager α × Bool :=
  match m.state.databases.find? (fun d => d.id == id) with
  | none => (m, false)
  | some _ =>
      ({ m with state := { m.state with
          databases :=
            (updateFirstMeta id (fun d => { d with name := newName })
              m.state.databases) } }, true)

/-- `DatabaseManager.deleteDatabase`: `false` on unknown id; `false` (no
state change) when only one entry remains; otherwise removes the entry and
its cache slot, and when the deleted store was active makes
`databases[0]?.id || null` of the remaining list active. -/
def deleteDatabase (id : String) (m : Manager α) : Manager α × Bool :=
  match m.state.databases.find? (fun d => d.id == id) with
  | none => (m, false)
  | some _ =>
      if m.state.databases.length = 1 then (m, false)
      else
        let databases := m.state.databases.filter (fun d => d.id != id)
        let active :=
          if m.state.activeDatabase = some id then databases.head?.map (·.id)
          else m.state.activeDatabase
        ({ m with
            state := { m.state with
              databases := databases, activeDatabase := active }
            loaded := m.loaded.filter (fun l => l != id) }, true)

/-- `DatabaseManager.getDatabase`: `none`-like `false` on unknown id; when
the store is not cached it is loaded, cached and its `lastAccessedAt` is
updated; a cached store is returned without touching the registry. -/
def getDatabaseTouch (id : String) (now : α) (m : Manager α) :
    Manager α × Bool :=
  match m.state.databases.find? (fun d => d.id == id) with
  | none => (m, false)
  | some _ =>
      if m.loaded.contains id then (m, true)
      else
        ({ m with
            state := { m.state with
              databases :=
                (updateFirstMeta id
                  (fun d => { d with lastAccessedAt := now })
                  m.state.databases) }
            loaded := m.loaded ++ [id] }, true)

/-! ## Session model: `MemoryDatabase` methods with their persistence effect

Every mutating method of `MemoryDatabase` ends in `await this.save()`;
`saveCount` counts those scheduled flushes, so "no persistence write is
triggered" is observable as an unchanged `saveCount`. -/

/-- A live `MemoryDatabase` instance: its state plus the number of times a
debounced save has been scheduled. -/
structure DbSession (α : Type) where
  state : DatabaseState α
  saveCount : Nat
deriving DecidableEq, Repr

/-- `addMemory` as a session step (mutates, saves). -/
def addMemoryS (id : String) (now : α) (imageUrl description : String)
    (s : DbSession α) : String × DbSession α :=
  (id, { state := addMemory id now imageUrl description s.state
         saveCount := s.saveCount + 1 })

/-- `updateEmbedding` as a session step (saves only when the id was found,
since the throw happens before `save`). -/
def updateEmbeddingS (id : String) (emb : List α) (now : α)
    (s : DbSession α) : Except String (DbSession α) :=
  match updateEmbedding id emb now s.state with
  | .error e => .error e
  | .ok st => .ok { state := st, saveCount := s.saveCount + 1 }

/-- `markEmbeddingFailed` as a session step (saves only when found). -/
def markEmbeddingFailedS (id : String) (s : DbSession α) : DbSession α :=
  if (s.state.memories.find? (fun m => m.id == id)).isSome then
    { state := markEmbeddingFailed id s.state, saveCount := s.saveCount + 1 }
  else s

/-- `markEmbeddingProcessing` as a session step (saves only when found). -/
def markEmbeddingProcessingS (id : String) (s : DbSession α) : DbSession α :=
  if (s.state.memories.find? (fun m => m.id == id)).isSome then
    { state := markEmbeddingProcessing id s.state
      saveCount := s.saveCount + 1 }
  else s

/-- `getEmbeddedMemories` as a session step: a pure read, no mutation and no
save. -/
def getEmbeddedMemoriesS (s : DbSession α) :
    List (MemoryRecord α) × DbSession α :=
  (getEmbeddedMemories s.state, s)

/-- `retrieveTopK` against a live `MemoryDatabase`: the only database call
it performs is one `db.getEmbeddedMemories()`; everything afterwards is pure
computation on the returned array. -/
def retrieveTopKS [LinearOrderedField α] (sqrt : α → α) (embedResult : Except String (List α))
    (now : α) (k : Nat) (s : DbSession α) :
    Except String (List (RetrievalResult α)) × DbSession α :=
  let r := getEmbeddedMemoriesS s
  let embeddedMemories := r.1
  let s1 := r.2
  if embeddedMemories.length = 0 then (.ok [], s1)
  else
    match embedResult with
    | .error e => (.error e, s1)
    | .ok queryEmbedding =>
        match mapExcept (scoreMemory sqrt queryEmbedding now)
            (embeddedMemories.filter (fun m => m.embedding.isSome)) with
        | .error e => (.error e, s1)
        | .ok results =>
            let sorted := results.mergeSort scoreLE
            ((.ok ((sorted.take k).map
              (fun r => { memory := r.memory, similarity := r.similarity }))),
              s1)

/-! ## Reachable `MemoryDatabase` states

The store states reachable from a fresh store by the four record
operations.  The external inputs (ids, timestamps, vectors) are arbitrary. -/

/-- Reachability for `MemoryDatabase` states under
`addMemory` / `updateEmbedding` / `markEmbeddingProcessing` /
`markEmbeddingFailed`. -/
inductive DbReach : DatabaseState α → Prop
  | empty : DbReach emptyState
  | add (id : String) (now : α) (imageUrl description : String) {s : DatabaseState α} :
      DbReach s → DbReach (addMemory id now imageUrl description s)
  | upd (id : String) (emb : List α) (now : α) {s t : DatabaseState α} :
      DbReach s → updateEmbedding id emb now s = .ok t → DbReach t
  | markProc (id : String) {s : DatabaseState α} :
      DbReach s → DbReach (markEmbeddingProcessing id s)
  | markFail (id : String) {s : DatabaseState α} :
      DbReach s → DbReach (markEmbeddingFailed id s)

/-! ## Registry invariant and reachable manager states -/

/-- The registry invariant of the spec, plus uniqueness of the entry ids
(ids are generated uniquely by the code; the registry is meaningless without
it): at least one entry, the active id references an entry, no two entries
share an id. -/
def RegInv (s : DatabaseManagerState α) : Prop :=
  s.databases ≠ [] ∧
    (∃ d ∈ s.databases, s.activeDatabase = some d.id) ∧
    (s.databases.map (·.id)).Nodup

/-- Manager states reachable from a completed `initialize()` by the manager
operations.  The two base cases are the two `initialize` outcomes: the
registry file was absent (a fresh `'default'` store is created, whose
just-written backing file exists), or the registry file was loaded, its
entries satisfy the invariant and all their backing files exist (so pruning
removes nothing).  `create` requires the generated id to be fresh, as the
timestamp+random generator intends. -/
inductive MgrReach : Manager α → Prop
  | initMissing (dataDir newId : String) (fileExists : String → Bool) (now : α) :
      fileExists (dataDir ++ "/" ++ newId ++ ".json") = true →
      MgrReach (initManager dataDir none fileExists newId now)
  | initLoaded (dataDir : String) (s : DatabaseManagerState α)
      (fileExists : String → Bool) (newId : String) (now : α) :
      RegInv s → (∀ d ∈ s.databases, fileExists d.filePath = true) →
      MgrReach (initManager dataDir (some s) fileExists newId now)
  | create (name newId : String) (now : α) {m : Manager α} :
      MgrReach m → newId ∉ m.state.databases.map (·.id) →
      MgrReach (createDatabase name newId now m).1
  | switch (id : String) (now : α) {m : Manager α} :
      MgrReach m → MgrReach (switchDatabase id now m).1
  | rename (id newName : String) {m : Manager α} :
      MgrReach m → MgrReach (renameDatabase id newName m).1
  | del (id : String) {m : Manager α} :
      MgrReach m → MgrReach (deleteDatabase id m).1
  | getDb (id : String) (now : α) {m : Manager α} :
      MgrReach m → MgrReach (getDatabaseTouch id now m).1

/-! ## Helper lemmas about `updateFirst` and `find?` -/

section UpdateFirst

variable {β : Type} {idOf : β → String} {id : String} {f : β → β}

theorem updateFirst_of_forall_ne {l : List β} (h : ∀ x ∈ l, idOf x ≠ id) :
    updateFirst idOf id f l = l := by
  induction l with
  | nil => rfl
  | cons x xs ih =>
      have hx : idOf x ≠ id := h x (List.mem_cons_self x xs)
      simp only [updateFirst, if_neg hx]
      exact congrArg (x :: ·) (ih fun y hy => h y (List.mem_cons_of_mem x hy))

theorem updateFirst_append_left {xs ys : List β}
    (h : ∀ x ∈ xs, idOf x ≠ id) :
    updateFirst idOf id f (xs ++ ys) = xs ++ updateFirst idOf id f ys := by
  induction xs with
  | nil => rfl
  | cons x xs ih =>
      have hx : idOf x ≠ id := h x (List.mem_cons_self x xs)
      simp only [List.cons_append, updateFirst, if_neg hx]
      exact congrArg (x :: ·) (ih fun y hy => h y (List.mem_cons_of_mem x hy))

theorem updateFirst_cons_of_eq {x : β} {xs : List β} (h : idOf x = id) :
    updateFirst idOf id f (x :: xs) = f x :: xs := by
  simp [updateFirst, if_pos h]

theorem mem_updateFirst {l : List β} {y : β}
    (h : y ∈ updateFirst idOf id f l) :
    y ∈ l ∨ ∃ x ∈ l, idOf x = id ∧ y = f x := by
  induction l with
  | nil => exact absurd h (by simp [updateFirst])
  | cons x xs ih =>
      by_cases hx : idOf x = id
      · rw [updateFirst_cons_of_eq hx] at h
        rcases List.mem_cons.mp h with h | h
        · exact Or.inr ⟨x, List.mem_cons_self x xs, hx, h⟩
        · exact Or.inl (List.mem_cons_of_mem x h)
      · simp only [updateFirst, if_neg hx] at h
        rcases List.mem_cons.mp h with h | h
        · exact Or.inl (h ▸ List.mem_cons_self x xs)
        · rcases ih h with h | ⟨z, hz, hzid, hy⟩
          · exact Or.inl (List.mem_cons_of_mem x h)
          · exact Or.inr ⟨z, List.mem_cons_of_mem x hz, hzid, hy⟩

theorem map_key_updateFirst {l : List β} (hf : ∀ x, idOf (f x) = idOf x) :
    (updateFirst idOf id f l).map idOf = l.map idOf := by
  induction l with
  | nil => rfl
  | cons x xs ih =>
      by_cases hx : idOf x = id
      · simp [updateFirst_cons_of_eq hx, hf]
      · simp only [updateFirst, if_neg hx, List.map_cons]
        exact congrArg (idOf x :: ·) ih

theorem length_updateFirst (l : List β) :
    (updateFirst idOf id f l).length = l.length := by
  induction l with
  | nil => rfl
  | cons x xs ih =>
      by_cases hx : idOf x = id
      · simp [updateFirst_cons_of_eq hx]
      · simp only [updateFirst, if_neg hx, List.length_cons]
        exact congrArg (· + 1) ih

/-- Decomposition along the first match: if `find?` locates `x`, the list
splits as `l₁ ++ x :: l₂` with no match in `l₁`, and `updateFirst` rewrites
exactly that occurrence. -/
theorem updateFirst_decomp {l : List β} {x : β}
    (h : l.find? (fun y => idOf y == id) = some x) :
    ∃ l₁ l₂, l = l₁ ++ x :: l₂ ∧ (∀ y ∈ l₁, idOf y ≠ id) ∧ idOf x = id ∧
      updateFirst idOf id f l = l₁ ++ f x :: l₂ := by
  induction l with
  | nil => exact absurd h (by simp)
  | cons z zs ih =>
      rw [List.find?_cons_eq_some] at h
      rcases h with ⟨hpz, rfl⟩ | ⟨hpz, h⟩
      · have hz : idOf z = id := by simpa using hpz
        exact ⟨[], zs, rfl, by simp, hz, updateFirst_cons_of_eq hz⟩
      · have hz : idOf z ≠ id := by simpa using hpz
        rcases ih h with ⟨l₁, l₂, hl, hne, hid, hupd⟩
        refine ⟨z :: l₁, l₂, by simp [hl], ?_, hid, ?_⟩
        · intro y hy
          rcases List.mem_cons.mp hy with rfl | hy
          · exact hz
          · exact hne y hy
        · simp only [updateFirst, if_neg hz, hupd, List.cons_append]

theorem find?_eq_none_iff {l : List β} :
    l.find? (fun y => idOf y == id) = none ↔ ∀ x ∈ l, idOf x ≠ id := by
  rw [List.find?_eq_none]
  constructor
  · intro h x hx
    have := h x hx
    simpa using this
  · intro h x hx
    simpa using h x hx

end UpdateFirst

/-! ## C1: status/embedding invariant -/

/-- C1 (amended): in every store state reachable by any sequence of
`addMemory` / `updateEmbedding` / `markEmbeddingProcessing` /
`markEmbeddingFailed`, every record with status `'completed'` has an
embedding.  (The converse direction of the claimed biconditional fails, see
the counterexample: marking a completed record failed or processing leaves
its embedding in place.) -/
theorem c1_completed_implies_embedding {s : DatabaseState α}
    (h : DbReach s) :
    ∀ r ∈ s.memories, r.embeddingStatus = .completed → r.embedding.isSome := by
  induction h with
  | empty =>
      intro r hr
      simp [emptyState] at hr
  | add id now imageUrl description _ ih =>
      intro r hr hc
      rcases List.mem_append.mp hr with hr | hr
      · exact ih r hr hc
      · rw [List.mem_singleton] at hr
        subst hr
        simp [mkPendingRecord] at hc
  | @upd id emb now s t _ heq ih =>
      intro r hr hc
      rw [updateEmbedding] at heq
      rcases hfind : s.memories.find? (fun m => m.id == id) with _ | x
      · rw [hfind] at heq
        exact absurd heq (by simp)
      · rw [hfind] at heq
        simp only [Except.ok.injEq] at heq
        subst heq
        rcases mem_updateFirst hr with hr | ⟨m, _, _, rfl⟩
        · exact ih r hr hc
        · simp
  | markProc id _ ih =>
      intro r hr hc
      rcases mem_updateFirst hr with hr | ⟨m, _, _, rfl⟩
      · exact ih r hr hc
      · simp at hc
  | markFail id _ ih =>
      intro r hr hc
      rcases mem_updateFirst hr with hr | ⟨m, _, _, rfl⟩
      · exact ih r hr hc
      · simp at hc

/-- The store after `addMemory "a"`, a successful `updateEmbedding "a" [1]`
at time `1`, i.e. one completed record carrying an embedding. -/
def c1CompletedState : DatabaseState ℚ :=
  { memories := [{ id := "a", time := 0, imageUrl := "img"
                   description := "desc", embedding := some [1]
                   embeddingStatus := .completed, createdAt := 0
                   embeddedAt := some 1 }]
    version := "1.0.0" }

/-- `c1CompletedState` after `markEmbeddingFailed "a"`: the status flips to
`'failed'` but the embedding is not cleared. -/
def c1FailedState : DatabaseState ℚ :=
  markEmbeddingFailed "a" c1CompletedState

/-- `c1CompletedState` is reachable. -/
theorem c1CompletedState_reach : DbReach c1CompletedState :=
  DbReach.upd "a" [1] 1
    (DbReach.add "a" 0 "img" "desc" DbReach.empty) rfl

/-- C1 counterexample: the biconditional `status == completed ⇔ embedding
present` fails on a reachable state.  After `addMemory`, `updateEmbedding`
and then `markEmbeddingFailed` on the same record, the reachable state
`c1FailedState` holds a record whose embedding is present while its status
is `'failed'`, because `markEmbeddingFailed` (and likewise
`markEmbeddingProcessing`) never clears the `embedding` field. -/
theorem c1_counterexample :
    DbReach c1FailedState ∧
      c1FailedState.memories =
        [{ id := "a", time := 0, imageUrl := "img", description := "desc"
           embedding := some [1], embeddingStatus := .failed, createdAt := 0
           embeddedAt := some 1 }] ∧
      ¬ (∀ r ∈ c1FailedState.memories,
          r.embeddingStatus = .completed ↔ r.embedding ≠ none) :=
  ⟨DbReach.markFail "a" c1CompletedState_reach, by decide, by decide⟩

/-- Witness for C1 at a concrete reachable state containing a completed
record. -/
theorem c1_completed_implies_embedding_witness :
    DbReach c1CompletedState ∧
      ∀ r ∈ c1CompletedState.memories,
        r.embeddingStatus = .completed → r.embedding.isSome :=
  ⟨c1CompletedState_reach,
    c1_completed_implies_embedding c1CompletedState_reach⟩

/-! ## C2: transition operations -/

/-- C2 (amended): what the status-transition operations actually enforce.
On an unknown id, `updateEmbedding` fails with a typed error while
`markEmbeddingProcessing` and `markEmbeddingFailed` are silent no-ops; on a
found record each operation succeeds *regardless of the record's current
status* (the pending→processing→{completed|failed} lifecycle is not
checked), and a successful `updateEmbedding` sets `embedding`,
`status = 'completed'` and `embeddedAt` together in one mutation. -/
theorem c2_transitions_amended (s : DatabaseState α) (id : String)
    (emb : List α) (now : α) :
    (s.memories.find? (fun m => m.id == id) = none →
      updateEmbedding id emb now s =
          .error ("Memory with id " ++ id ++ " not found") ∧
        markEmbeddingProcessing id s = s ∧
        markEmbeddingFailed id s = s) ∧
    (∀ x, s.memories.find? (fun m => m.id == id) = some x →
      ∃ l₁ l₂, s.memories = l₁ ++ x :: l₂ ∧
        updateEmbedding id emb now s = .ok { s with
          memories := l₁ ++
            ({ x with embedding := some emb, embeddingStatus := .completed
                      embeddedAt := some now }) :: l₂ }) := by
  constructor
  · intro hnone
    have hne := find?_eq_none_iff.mp hnone
    refine ⟨by simp [updateEmbedding, hnone], ?_, ?_⟩
    · show ({ s with memories := _ } : DatabaseState α) = s
      rw [updateFirstMem, updateFirst_of_forall_ne hne]
    · show ({ s with memories := _ } : DatabaseState α) = s
      rw [updateFirstMem, updateFirst_of_forall_ne hne]
  · intro x hx
    rcases @updateFirst_decomp (MemoryRecord α) (·.id) id
        (fun m => { m with embedding := some emb
                           embeddingStatus := EmbeddingStatus.completed
                           embeddedAt := some now }) s.memories x hx with
      ⟨l₁, l₂, hl, _, _, hupd⟩
    exact ⟨l₁, l₂, hl, by simp [updateEmbedding, hx, updateFirstMem, hupd]⟩

/-- A store holding one record `"b"` in the terminal status `'failed'`. -/
def c2FailedState : DatabaseState ℚ :=
  { memories := [{ id := "b", time := 0, imageUrl := "u", description := "d"
                   embedding := none, embeddingStatus := .failed
                   createdAt := 0, embeddedAt := none }]
    version := "1.0.0" }

/-- C2 counterexample: the claimed enforcement does not happen.
`markEmbeddingProcessing` on an id matching no record silently succeeds
(returns the unchanged store, no typed error), and `updateEmbedding` on a
record whose source status is `'failed'` — not the legal predecessor
`'processing'` — succeeds instead of failing, moving the record back to
`'completed'`. -/
theorem c2_counterexample :
    markEmbeddingProcessing "nope" c2FailedState = c2FailedState ∧
      c2FailedState.memories.map (·.embeddingStatus) = [.failed] ∧
      updateEmbedding "b" [1] 5 c2FailedState = .ok
        { memories := [{ id := "b", time := 0, imageUrl := "u"
                         description := "d", embedding := some [1]
                         embeddingStatus := .completed, createdAt := 0
                         embeddedAt := some 5 }]
          version := "1.0.0" } := by
  refine ⟨by decide, by decide, rfl⟩

/-- Witness for C2 at the concrete store `c2FailedState`, with the unknown
id `"zz"` and the known id `"b"`. -/
theorem c2_transitions_amended_witness :
    (updateEmbedding "zz" [1] 0 c2FailedState =
        .error ("Memory with id " ++ "zz" ++ " not found") ∧
      markEmbeddingProcessing "zz" c2FailedState = c2FailedState ∧
      markEmbeddingFailed "zz" c2FailedState = c2FailedState) ∧
    (∃ l₁ l₂, c2FailedState.memories = l₁ ++
        ({ id := "b", time := 0, imageUrl := "u", description := "d"
           embedding := none, embeddingStatus := .failed, createdAt := 0
           embeddedAt := none } : MemoryRecord ℚ) :: l₂ ∧
      updateEmbedding "b" [1] 0 c2FailedState = .ok { c2FailedState with
        memories := l₁ ++
          ({ id := "b", time := 0, imageUrl := "u", description := "d"
             embedding := some [1], embeddingStatus := .completed
             createdAt := 0, embeddedAt := some 0 } : MemoryRecord ℚ) :: l₂ }) :=
  ⟨(c2_transitions_amended c2FailedState "zz" [1] 0).1 (by decide),
    (c2_transitions_amended c2FailedState "b" [1] 0).2
      { id := "b", time := 0, imageUrl := "u", description := "d"
        embedding := none, embeddingStatus := .failed, createdAt := 0
        embeddedAt := none } (by decide)⟩

/-! ## C4: no requeue of `processing` records at `initialize()` -/

/-- A persisted store whose single record was orphaned mid-flight: it is
still in status `'processing'`. -/
def c4OrphanState : DatabaseState ℚ :=
  { memories := [{ id := "o", time := 0, imageUrl := "u", description := "d"
                   embedding := none, embeddingStatus := .processing
                   createdAt := 0, embeddedAt := none }]
    version := "1.0.0" }

/-- C4: the claim (and spec §4.2) requires `initialize()` to requeue
orphaned `'processing'` records to `'pending'`; the code has no such pass —
`initialize` adopts the parsed file verbatim, so the orphan keeps status
`'processing'` and is visible neither to `getPendingMemories` (the worker's
queue) nor to `getEmbeddedMemories` (the retrieval path): it is stranded,
exactly what the claim rules out.  The spec itself flags this divergence in
§9 ("not handled consistently in observed behavior"). -/
theorem c4_no_requeue_on_init :
    initDb (some c4OrphanState) = c4OrphanState ∧
      (initDb (some c4OrphanState)).memories.map (·.embeddingStatus) =
        [.processing] ∧
      getPendingMemories (initDb (some c4OrphanState)) = [] ∧
      getEmbeddedMemories (initDb (some c4OrphanState)) = [] :=
  ⟨rfl, by decide, by decide, by decide⟩

/-! ## C6: `deleteDatabase` -/

/-- C6: `deleteDatabase` behaviour.  With a single registry entry every
delete call fails and returns the manager unchanged.  With at least two
entries (with the registry's unique ids) and an existing id, the call
succeeds: the entry is removed, the result is still nonempty, a previously
active deleted store is replaced by some remaining store as active, and a
different active store is untouched. -/
theorem c6_deleteDatabase (m : Manager α) (id : String) :
    (m.state.databases.length = 1 → deleteDatabase id m = (m, false)) ∧
    (2 ≤ m.state.databases.length →
      (m.state.databases.map (·.id)).Nodup →
      ∀ d ∈ m.state.databases, d.id = id →
        (deleteDatabase id m).2 = true ∧
        (deleteDatabase id m).1.state.databases =
          m.state.databases.filter (fun x => x.id != id) ∧
        (∀ x ∈ (deleteDatabase id m).1.state.databases, x.id ≠ id) ∧
        (deleteDatabase id m).1.state.databases ≠ [] ∧
        (m.state.activeDatabase = some id →
          ∃ x ∈ (deleteDatabase id m).1.state.databases,
            (deleteDatabase id m).1.state.activeDatabase = some x.id) ∧
        (m.state.activeDatabase ≠ some id →
          (deleteDatabase id m).1.state.activeDatabase =
            m.state.activeDatabase)) := by
  constructor
  · intro hlen
    rcases hfind : m.state.databases.find? (fun d => d.id == id) with _ | x
    · simp only [deleteDatabase, hfind]
    · simp only [deleteDatabase, hfind, if_pos hlen]
  · intro hlen hnd d hd hdid
    have hfind : (m.state.databases.find? (fun x => x.id == id)).isSome := by
      rw [List.find?_isSome]
      exact ⟨d, hd, by simp [hdid]⟩
    rcases hx : m.state.databases.find? (fun x => x.id == id) with _ | x
    · rw [hx] at hfind; simp at hfind
    have hlen1 : ¬ m.state.databases.length = 1 := by omega
    have hdel : deleteDatabase id m =
        ({ m with
            state := { m.state with
              databases := m.state.databases.filter (fun x => x.id != id)
              activeDatabase :=
                if m.state.activeDatabase = some id then
                  (m.state.databases.filter (fun x => x.id != id)).head?.map (·.id)
                else m.state.activeDatabase }
            loaded := m.loaded.filter (fun l => l != id) }, true) := by
      simp only [deleteDatabase, hx, if_neg hlen1]
    have hne : m.state.databases.filter (fun y => y.id != id) ≠ [] := by
      intro hnil
      have hall := List.filter_eq_nil_iff.mp hnil
      rcases hdbs : m.state.databases with _ | ⟨a, _ | ⟨b, rest⟩⟩
      · rw [hdbs] at hlen; simp at hlen
      · rw [hdbs] at hlen; simp at hlen
      · rw [hdbs] at hall hnd
        have ha : a.id = id := by simpa using hall a (by simp)
        have hb : b.id = id := by simpa using hall b (by simp)
        simp only [List.map_cons, List.nodup_cons] at hnd
        exact hnd.1 (by simp [ha, hb])
    refine ⟨by rw [hdel], by rw [hdel], ?_, ?_, ?_, ?_⟩
    · intro y hy
      rw [hdel] at hy
      have := List.of_mem_filter hy
      simpa using this
    · rw [hdel]
      exact hne
    · intro hact
      rw [hdel]
      rcases hh : (m.state.databases.filter (fun y => y.id != id)).head? with _ | y
      · exact absurd (List.head?_eq_none_iff.mp hh) hne
      · exact ⟨y, List.mem_of_mem_head? (by simp [hh]), by simp [hact, hh]⟩
    · intro hact
      rw [hdel]
      simp [hact]

/-- A two-entry registry with `"w"` active. -/
def c6Manager : Manager ℚ :=
  { dataDir := "data"
    state :=
      { databases :=
          [{ id := "w", name := "Work", filePath := "data/w.json"
             createdAt := 0, lastAccessedAt := 0 },
           { id := "h", name := "Home", filePath := "data/h.json"
             createdAt := 0, lastAccessedAt := 0 }]
        activeDatabase := some "w", version := "1.0.0" }
    loaded := [] }

/-- The same registry reduced to its sole entry `"w"`. -/
def c6SoleManager : Manager ℚ :=
  { dataDir := "data"
    state :=
      { databases :=
          [{ id := "w", name := "Work", filePath := "data/w.json"
             createdAt := 0, lastAccessedAt := 0 }]
        activeDatabase := some "w", version := "1.0.0" }
    loaded := [] }

/-- Witness for C6: deleting the sole store `"w"` is refused with the state
unchanged; deleting the active `"w"` out of two stores succeeds, removes it,
leaves a nonempty registry and promotes a remaining store to active. -/
theorem c6_deleteDatabase_witness :
    deleteDatabase "w" c6SoleManager = (c6SoleManager, false) ∧
      ((deleteDatabase "w" c6Manager).2 = true ∧
        (deleteDatabase "w" c6Manager).1.state.databases =
          c6Manager.state.databases.filter (fun x => x.id != "w") ∧
        (∀ x ∈ (deleteDatabase "w" c6Manager).1.state.databases,
          x.id ≠ "w") ∧
        (deleteDatabase "w" c6Manager).1.state.databases ≠ [] ∧
        (c6Manager.state.activeDatabase = some "w" →
          ∃ x ∈ (deleteDatabase "w" c6Manager).1.state.databases,
            (deleteDatabase "w" c6Manager).1.state.activeDatabase =
              some x.id) ∧
        (c6Manager.state.activeDatabase ≠ some "w" →
          (deleteDatabase "w" c6Manager).1.state.activeDatabase =
            c6Manager.state.activeDatabase)) :=
  ⟨(c6_deleteDatabase c6SoleManager "w").1 (by decide),
    (c6_deleteDatabase c6Manager "w").2 (by decide) (by decide)
      { id := "w", name := "Work", filePath := "data/w.json"
        createdAt := 0, lastAccessedAt := 0 } (by decide) (by decide)⟩

/-! ## C5: registry invariant -/

/-- Membership of an id among the entries, via the id projection. -/
theorem exists_entry_of_mem_map_id {l : List (DatabaseMetadata α)}
    {id : String} (h : id ∈ l.map (·.id)) : ∃ d ∈ l, id = d.id := by
  rcases List.mem_map.mp h with ⟨d, hd, hid⟩
  exact ⟨d, hd, hid.symm⟩

/-- `updateFirstMeta` with an id-preserving mutation keeps the id list. -/
theorem updateFirstMeta_map_id {l : List (DatabaseMetadata α)} {id : String}
    {f : DatabaseMetadata α → DatabaseMetadata α}
    (hf : ∀ d, (f d).id = d.id) :
    (updateFirstMeta id f l).map (·.id) = l.map (·.id) :=
  map_key_updateFirst hf

/-- `RegInv` only depends on the id list and the active id. -/
theorem regInv_of_map_id {s t : DatabaseManagerState α}
    (hids : t.databases.map (·.id) = s.databases.map (·.id))
    (hact : t.activeDatabase = s.activeDatabase)
    (h : RegInv s) : RegInv t := by
  rcases h with ⟨hne, ⟨d, hd, hdid⟩, hnd⟩
  refine ⟨?_, ?_, hids ▸ hnd⟩
  · intro ht
    rw [ht] at hids
    exact hne (List.map_eq_nil_iff.mp hids.symm)
  · have : d.id ∈ t.databases.map (·.id) := by
      rw [hids]
      exact List.mem_map.mpr ⟨d, hd, rfl⟩
    rcases exists_entry_of_mem_map_id this with ⟨e, he, hid⟩
    exact ⟨e, he, by rw [hact, hdid, hid]⟩

/-- `createDatabase` with a fresh id preserves the registry invariant. -/
theorem createDatabase_regInv {m : Manager α} {name newId : String} {now : α}
    (hfresh : newId ∉ m.state.databases.map (·.id))
    (h : RegInv m.state) :
    RegInv (createDatabase name newId now m).1.state := by
  rcases h with ⟨hne, ⟨d, hd, hdid⟩, hnd⟩
  refine ⟨by simp [createDatabase], ?_, ?_⟩
  · refine ⟨d, by simp [createDatabase, List.mem_append.mpr (Or.inl hd)], ?_⟩
    simp only [createDatabase, hdid]
  · simp only [createDatabase, List.map_append, List.map_cons, List.map_nil]
    rw [List.nodup_append]
    exact ⟨hnd, List.nodup_singleton _,
      by intro a ha hb; simp at hb; exact hfresh (hb ▸ ha)⟩

/-- `switchDatabase` preserves the registry invariant. -/
theorem switchDatabase_regInv {m : Manager α} {id : String} {now : α}
    (h : RegInv m.state) : RegInv (switchDatabase id now m).1.state := by
  rcases hx : m.state.databases.find? (fun d => d.id == id) with _ | x
  · simpa [switchDatabase, hx] using h
  · have hxid : x.id = id := by simpa using List.find?_some hx
    have hxmem : x ∈ m.state.databases := List.mem_of_find?_eq_some hx
    have hids : (updateFirstMeta id (fun d => { d with lastAccessedAt := now })
        m.state.databases).map (·.id) = m.state.databases.map (·.id) :=
      updateFirstMeta_map_id (fun d => rfl)
    rcases h with ⟨hne, _, hnd⟩
    refine ⟨?_, ?_, ?_⟩
    · simp only [switchDatabase, hx]
      intro hEq
      rw [hEq] at hids
      exact hne (List.map_eq_nil_iff.mp hids.symm)
    · have : id ∈ (updateFirstMeta id (fun d => { d with lastAccessedAt := now })
          m.state.databases).map (·.id) := by
        rw [hids, ← hxid]
        exact List.mem_map.mpr ⟨x, hxmem, rfl⟩
      rcases exists_entry_of_mem_map_id this with ⟨e, he, hid⟩
      refine ⟨e, ?_, ?_⟩
      · simpa only [switchDatabase, hx] using he
      · simp only [switchDatabase, hx]
        rw [hid]
    · simp only [switchDatabase, hx]
      rw [hids]
      exact hnd

/-- `renameDatabase` preserves the registry invariant. -/
theorem renameDatabase_regInv {m : Manager α} {id newName : String}
    (h : RegInv m.state) : RegInv (renameDatabase id newName m).1.state := by
  rcases hx : m.state.databases.find? (fun d => d.id == id) with _ | x
  · simpa [renameDatabase, hx] using h
  · refine regInv_of_map_id ?_ ?_ h
    · simp only [renameDatabase, hx]
      exact updateFirstMeta_map_id (fun d => rfl)
    · simp only [renameDatabase, hx]

/-- `getDatabase` preserves the registry invariant. -/
theorem getDatabaseTouch_regInv {m : Manager α} {id : String} {now : α}
    (h : RegInv m.state) : RegInv (getDatabaseTouch id now m).1.state := by
  rcases hx : m.state.databases.find? (fun d => d.id == id) with _ | x
  · simpa [getDatabaseTouch, hx] using h
  · by_cases hc : id ∈ m.loaded
    · simpa [getDatabaseTouch, hx, hc] using h
    · refine regInv_of_map_id ?_ ?_ h
      · simp [getDatabaseTouch, hx, hc]
        exact updateFirstMeta_map_id (fun d => rfl)
      · simp [getDatabaseTouch, hx, hc]

/-- `deleteDatabase` preserves the registry invariant. -/
theorem deleteDatabase_regInv {m : Manager α} {id : String}
    (h : RegInv m.state) : RegInv (deleteDatabase id m).1.state := by
  rcases hx : m.state.databases.find? (fun d => d.id == id) with _ | x
  · simpa [deleteDatabase, hx] using h
  · rcases h with ⟨hne, ⟨d, hd, hdid⟩, hnd⟩
    by_cases hlen1 : m.state.databases.length = 1
    · simpa [deleteDatabase, hx, hlen1] using
        (⟨hne, ⟨d, hd, hdid⟩, hnd⟩ : RegInv m.state)
    · have hlen : 2 ≤ m.state.databases.length := by
        rcases hmem : m.state.databases with _ | ⟨a, rest⟩
        · exact absurd hmem hne
        · rw [hmem] at hlen1
          simp only [List.length_cons] at hlen1 ⊢
          omega
      have hdel :=
        (c6_deleteDatabase m id).2 hlen hnd x (List.mem_of_find?_eq_some hx)
          (by simpa using List.find?_some hx)
      rcases hdel with ⟨-, hdbs, hnotid, hnonempty, hactdel, hactkeep⟩
      refine ⟨hnonempty, ?_, ?_⟩
      · by_cases hact : m.state.activeDatabase = some id
        · exact hactdel hact
        · have hdne : d.id ≠ id := fun hEq => hact (by rw [hdid, hEq])
          have hmm : d.id ∈ ((deleteDatabase id m).1.state.databases).map (·.id) := by
            rw [hdbs]
            exact List.mem_map.mpr
              ⟨d, List.mem_filter.mpr ⟨hd, by simpa using hdne⟩, rfl⟩
          rcases exists_entry_of_mem_map_id hmm with ⟨e, he, hid⟩
          exact ⟨e, he, by rw [hactkeep hact, hdid, hid]⟩
      · rw [hdbs]
        exact List.Nodup.sublist
          (List.Sublist.map (fun d : DatabaseMetadata α => d.id)
            (List.filter_sublist m.state.databases)) hnd

/-- C5 (amended): the registry invariant — at least one entry, the active id
referencing an existing entry (and unique entry ids) — holds in every state
reachable after an `initialize()` that either found no registry file or
loaded a registry satisfying the invariant whose backing files all exist,
and is preserved by every manager operation.  (As stated, the claim fails:
`initialize` can prune the active entry without repairing `activeDatabase`,
or prune every entry — see the counterexample.) -/
theorem c5_registry_invariant {m : Manager α} (h : MgrReach m) :
    RegInv m.state := by
  induction h with
  | initMissing dataDir newId fileExists now hfe =>
      refine ⟨?_, ?_, ?_⟩
      · simp [initManager, createDatabase, hfe]
      · refine ⟨{ id := newId, name := "default"
                  filePath := dataDir ++ "/" ++ newId ++ ".json"
                  createdAt := now, lastAccessedAt := now }, ?_, ?_⟩
        · simp [initManager, createDatabase, hfe]
        · simp [initManager, createDatabase, hfe]
      · simp [initManager, createDatabase, hfe]
  | initLoaded dataDir s fileExists newId now hinv hfe =>
      have hfilter : s.databases.filter (fun d => fileExists d.filePath) =
          s.databases := List.filter_eq_self.mpr hfe
      rcases hinv with ⟨hne, ⟨d, hd, hdid⟩, hnd⟩
      have hact : s.activeDatabase = some d.id := hdid
      refine ⟨?_, ⟨d, ?_, ?_⟩, ?_⟩
      · simpa [initManager, hfilter, hact] using hne
      · simpa [initManager, hfilter, hact] using hd
      · simp [initManager, hfilter, hact]
      · simpa [initManager, hfilter, hact] using hnd
  | create name newId now _ hfresh ih => exact createDatabase_regInv hfresh ih
  | switch id now _ ih => exact switchDatabase_regInv ih
  | rename id newName _ ih => exact renameDatabase_regInv ih
  | del id _ ih => exact deleteDatabase_regInv ih
  | getDb id now _ ih => exact getDatabaseTouch_regInv ih

/-- A well-formed persisted registry whose sole entry's backing file has
been removed from disk. -/
def c5LoadedState : DatabaseManagerState ℚ :=
  { databases := [{ id := "A", name := "default", filePath := "data/A.json"
                    createdAt := 0, lastAccessedAt := 0 }]
    activeDatabase := some "A", version := "1.0.0" }

/-- C5 counterexample: the claim quantifies over every state reachable after
`initialize()` completes, but `initialize` itself can end in a violating
state: loading `c5LoadedState` when its entry's backing file is missing
prunes the only entry yet leaves `activeDatabase = some "A"`, so the
registry is empty and the active id dangles — both conjuncts of the
invariant fail. -/
theorem c5_counterexample :
    (initManager "data" (some c5LoadedState) (fun _ => false) "F"
        0).state.databases = [] ∧
      (initManager "data" (some c5LoadedState) (fun _ => false) "F"
        0).state.activeDatabase = some "A" ∧
      ¬ RegInv (initManager "data" (some c5LoadedState) (fun _ => false) "F"
        0).state := by
  refine ⟨rfl, rfl, ?_⟩
  intro hinv
  rcases hinv with ⟨hne, -, -⟩
  exact hne rfl

/-- Witness for C5: the fresh-install `initialize` (no registry file, the
just-created default store's file present) yields a state satisfying the
invariant. -/
theorem c5_registry_invariant_witness :
    MgrReach (initManager "data" none (fun _ => true) "A" (0 : ℚ)) ∧
      RegInv (initManager "data" none (fun _ => true) "A" (0 : ℚ)).state :=
  ⟨MgrReach.initMissing "data" "A" (fun _ => true) 0 rfl,
    c5_registry_invariant
      (MgrReach.initMissing "data" "A" (fun _ => true) 0 rfl)⟩

/-! ## C9: strict FIFO processing order of the worker -/

/-- The worker's net effect keeps the record id. -/
theorem finalizeRec_id (embed : String → Except String (List α)) (now : α)
    (r : MemoryRecord α) : (finalizeRec embed now r).id = r.id := by
  cases h : embed r.description <;> simp [finalizeRec, h]

/-- A record processed by the worker is terminal, never `'pending'`. -/
theorem finalizeRec_not_pending (embed : String → Except String (List α))
    (now : α) (r : MemoryRecord α) :
    (finalizeRec embed now r).embeddingStatus ≠ .pending := by
  cases h : embed r.description <;> simp [finalizeRec, h]

/-- In a store whose first `k` capture-ordered records have been processed
and whose remainder is still pending, the pending queue is exactly the
remainder, in capture order. -/
theorem getPendingMemories_processed
    (embed : String → Except String (List α)) (now : α)
    {l : List (MemoryRecord α)} (version : String)
    (hpend : ∀ r ∈ l, r.embeddingStatus = .pending) (k : Nat) :
    getPendingMemories
        { memories := (l.take k).map (finalizeRec embed now) ++ l.drop k
          version := version } = l.drop k := by
  have h1 : ((l.take k).map (finalizeRec embed now)).filter
      (fun m => m.embeddingStatus == .pending) = [] := by
    rw [List.filter_eq_nil_iff]
    intro x hx
    rcases List.mem_map.mp hx with ⟨y, _, rfl⟩
    simpa using finalizeRec_not_pending embed now y
  have h2 : (l.drop k).filter (fun m => m.embeddingStatus == .pending) =
      l.drop k := by
    rw [List.filter_eq_self]
    intro r hr
    simp [hpend r ((List.drop_sublist k l).subset hr)]
  simp only [getPendingMemories, List.filter_append, h1, h2, List.nil_append]

/-- C9: the embedding worker drains the store in strict FIFO capture order.
For records `r₁ … rₙ` added in that order (all pending, distinct generated
ids), after `k` worker iterations the state consists of the first
`min k n` records in their terminal status (`'completed'` carrying the
provider's vector and the `embeddedAt` timestamp on provider success,
`'failed'` on provider failure), in place and in order, followed by the
untouched pending remainder — hence each iteration selects exactly the
oldest pending record, and the records reach their terminal status in
capture order. -/
theorem c9_worker_fifo (embed : String → Except String (List α)) (now : α)
    (l : List (MemoryRecord α)) (version : String)
    (hpend : ∀ r ∈ l, r.embeddingStatus = .pending)
    (hnd : (l.map (·.id)).Nodup) (k : Nat) :
    iterateSteps embed now k { memories := l, version := version } =
        { memories := (l.take k).map (finalizeRec embed now) ++ l.drop k
          version := version } ∧
      getPendingMemories
          (iterateSteps embed now k { memories := l, version := version }) =
        l.drop k := by
  have key : ∀ j, iterateSteps embed now j { memories := l, version := version } =
      { memories := (l.take j).map (finalizeRec embed now) ++ l.drop j
        version := version } := by
    intro j
    induction j with
    | zero => simp [iterateSteps]
    | succ j ih =>
        have hstep : iterateSteps embed now (j + 1)
            { memories := l, version := version } =
            processNextBatch embed now (iterateSteps embed now j
              { memories := l, version := version }) := rfl
        have hpendj := getPendingMemories_processed embed now
          version hpend j
        rcases hdrop : l.drop j with _ | ⟨m, rest⟩
        · -- nothing pending is left: the pass is a no-op
          have hlen : l.length ≤ j := List.drop_eq_nil_iff.mp hdrop
          have htj : l.take j = l := List.take_of_length_le hlen
          have htj1 : l.take (j + 1) = l :=
            List.take_of_length_le (Nat.le_succ_of_le hlen)
          have hdj1 : l.drop (j + 1) = [] :=
            List.drop_eq_nil_of_le (Nat.le_succ_of_le hlen)
          have hpendnil : getPendingMemories
              { memories := (l.take j).map (finalizeRec embed now) ++ l.drop j
                version := version } = [] := by rw [hpendj, hdrop]
          rw [hstep, ih, processNextBatch, hpendnil, htj, htj1, hdrop, hdj1]
        · -- the head of the pending queue is the record at position j
          have hm : m ∈ l := (List.drop_sublist j l).subset
            (hdrop ▸ List.mem_cons_self m rest)
          have hget : l[j]? = some m := by
            have h0 := List.getElem?_drop l j 0
            rw [hdrop] at h0
            simpa using h0.symm
          have htj1 : l.take (j + 1) = l.take j ++ [m] := by
            rw [List.take_succ, hget]
            rfl
          have hdj1 : l.drop (j + 1) = rest := by
            have h1 := List.drop_drop 1 j l
            rw [hdrop] at h1
            simp at h1
            exact h1.symm
          -- the already-processed prefix contains no record with m's id
          have hnd2 : ((l.take j).map (·.id) ++
              m.id :: rest.map (·.id)).Nodup := by
            have hsplit : l.take j ++ m :: rest = l := by
              rw [← hdrop, List.take_append_drop]
            rw [← hsplit] at hnd
            simpa using hnd
          have hnotin : m.id ∉ (l.take j).map (·.id) := by
            intro hmem
            rcases List.nodup_append.mp hnd2 with ⟨-, -, hdisj⟩
            exact hdisj hmem (List.mem_cons_self _ _)
          have hprefix : ∀ x ∈ (l.take j).map (finalizeRec embed now),
              x.id ≠ m.id := by
            intro x hx
            rcases List.mem_map.mp hx with ⟨y, hy, rfl⟩
            rw [finalizeRec_id]
            intro hEq
            exact hnotin (hEq ▸ List.mem_map.mpr ⟨y, hy, rfl⟩)
          -- one pass processes exactly m
          have hproc : markEmbeddingProcessing m.id
              { memories := (l.take j).map (finalizeRec embed now) ++
                  m :: rest
                version := version } =
              { memories := (l.take j).map (finalizeRec embed now) ++
                  ({ m with embeddingStatus := .processing }) :: rest
                version := version } := by
            simp only [markEmbeddingProcessing, updateFirstMem]
            rw [updateFirst_append_left hprefix, updateFirst_cons_of_eq rfl]
          have hpendcons : getPendingMemories
              { memories := (l.take j).map (finalizeRec embed now) ++ l.drop j
                version := version } = m :: rest := by rw [hpendj, hdrop]
          rw [hstep, ih, processNextBatch, hpendcons, hdrop, htj1, hdj1]
          simp only [hproc]
          rcases hembed : embed m.description with e | emb
          · -- provider failure: the selected record becomes 'failed'
            simp only [markEmbeddingFailed, updateFirstMem]
            rw [updateFirst_append_left hprefix,
              updateFirst_cons_of_eq
                (show ({ m with embeddingStatus := EmbeddingStatus.processing } :
                  MemoryRecord α).id = m.id from rfl)]
            simp [finalizeRec, hembed, List.map_append]
          · -- provider success: the selected record becomes 'completed'
            have hfind : ((l.take j).map (finalizeRec embed now) ++
                ({ m with embeddingStatus := EmbeddingStatus.processing })
                  :: rest).find? (fun x => x.id == m.id) =
                some { m with embeddingStatus := EmbeddingStatus.processing } := by
              rw [List.find?_append]
              have hnone : ((l.take j).map (finalizeRec embed now)).find?
                  (fun x => x.id == m.id) = none :=
                find?_eq_none_iff.mpr hprefix
              rw [hnone]
              simp
            simp only [updateEmbedding, hfind, updateFirstMem]
            rw [updateFirst_append_left hprefix,
              updateFirst_cons_of_eq
                (show ({ m with embeddingStatus := EmbeddingStatus.processing } :
                  MemoryRecord α).id = m.id from rfl)]
            simp [finalizeRec, hembed, List.map_append]
  refine ⟨key k, ?_⟩
  rw [key k]
  exact getPendingMemories_processed embed now version hpend k

/-- Two fresh pending records in capture order. -/
def c9Records : List (MemoryRecord ℚ) :=
  [mkPendingRecord "r1" 0 "u1" "d1", mkPendingRecord "r2" 1 "u2" "d2"]

/-- Witness for C9: with a provider that succeeds with `[1]`, one iteration
on a two-record store processes exactly the oldest record `r1` and leaves
`r2` pending. -/
theorem c9_worker_fifo_witness :
    iterateSteps (fun _ => .ok [1]) (5 : ℚ) 1
        { memories := c9Records, version := "1.0.0" } =
      { memories := (c9Records.take 1).map
          (finalizeRec (fun _ => .ok [1]) 5) ++ c9Records.drop 1
        version := "1.0.0" } ∧
    getPendingMemories (iterateSteps (fun _ => .ok [1]) (5 : ℚ) 1
        { memories := c9Records, version := "1.0.0" }) =
      c9Records.drop 1 :=
  c9_worker_fifo (fun _ => .ok [1]) 5 c9Records "1.0.0" (by decide)
    (by decide) 1

/-! ## `mapExcept` lemmas -/

theorem mapExcept_ok_of_all {β γ : Type} {f : β → Except String γ}
    {g : β → γ} : ∀ {l : List β}, (∀ x ∈ l, f x = .ok (g x)) →
    mapExcept f l = .ok (l.map g)
  | [], _ => rfl
  | x :: xs, h => by
      have hx := h x (List.mem_cons_self x xs)
      have ih := mapExcept_ok_of_all
        (fun y hy => h y (List.mem_cons_of_mem x hy))
      simp [mapExcept, hx, ih]

theorem mapExcept_ok_mem {β γ : Type} {f : β → Except String γ} :
    ∀ {l : List β} {out : List γ}, mapExcept f l = .ok out →
    ∀ y ∈ out, ∃ x ∈ l, f x = .ok y
  | [], out, h => by
      simp only [mapExcept, Except.ok.injEq] at h
      subst h
      intro y hy
      exact absurd hy (by simp)
  | x :: xs, out, h => by
      rcases hx : f x with e | y0
      · rw [mapExcept, hx] at h
        exact absurd h (by simp)
      · rw [mapExcept, hx] at h
        rcases hxs : mapExcept f xs with e | ys
        · rw [hxs] at h
          exact absurd h (by simp)
        · rw [hxs] at h
          simp only [Except.ok.injEq] at h
          subst h
          intro y hy
          rcases List.mem_cons.mp hy with rfl | hy
          · exact ⟨x, List.mem_cons_self x xs, hx⟩
          · rcases mapExcept_ok_mem hxs y hy with ⟨z, hz, hfz⟩
            exact ⟨z, List.mem_cons_of_mem x hz, hfz⟩

/-! ## C7: candidate selection of the retriever -/

/-- The inner `filter(memory => memory.embedding !== null)` of
`retrieveTopK` is redundant: `getEmbeddedMemories` already guarantees it. -/
theorem getEmbeddedMemories_filter_isSome (db : DatabaseState α) :
    (getEmbeddedMemories db).filter (fun m => m.embedding.isSome) =
      getEmbeddedMemories db := by
  rw [List.filter_eq_self]
  intro m hm
  have := List.of_mem_filter hm
  simp only [Bool.and_eq_true] at this
  exact this.2

/-- C7: `retrieveTopK` considers as candidates exactly the records with
status `'completed'` and a present embedding; an empty candidate set yields
`.ok []` for *every* provider outcome — even a failing provider — since the
provider is only consulted after the emptiness check; and every returned
result is a completed record with an embedding from the store, so no
pending/processing/failed record is ever returned. -/
theorem c7_candidate_selection [LinearOrderedField α] (sqrt : α → α)
    (db : DatabaseState α) (now : α) (k : Nat) :
    getEmbeddedMemories db = db.memories.filter
        (fun m => m.embeddingStatus == .completed && m.embedding.isSome) ∧
      (getEmbeddedMemories db = [] → ∀ embedResult,
        retrieveTopK sqrt embedResult db now k = .ok []) ∧
      (∀ embedResult l, retrieveTopK sqrt embedResult db now k = .ok l →
        ∀ x ∈ l, x.memory ∈ db.memories ∧
          x.memory.embeddingStatus = .completed ∧
          x.memory.embedding.isSome) := by
  refine ⟨rfl, ?_, ?_⟩
  · intro hempty embedResult
    rw [retrieveTopK.eq_def, hempty]
    rfl
  · intro embedResult l hl x hx
    rw [retrieveTopK.eq_def] at hl
    by_cases hlen : (getEmbeddedMemories db).length = 0
    · rw [if_pos hlen] at hl
      simp only [Except.ok.injEq] at hl
      subst hl
      exact absurd hx (by simp)
    · rw [if_neg hlen] at hl
      rcases embedResult with e | q
      · simp at hl
      · rcases hmap : mapExcept (scoreMemory sqrt q now)
            ((getEmbeddedMemories db).filter (fun m => m.embedding.isSome))
          with e | results
        · simp only [hmap] at hl
          exact absurd hl (by simp)
        · simp only [hmap, Except.ok.injEq] at hl
          subst hl
          rcases List.mem_map.mp hx with ⟨r, hr, rfl⟩
          have hr2 : r ∈ results.mergeSort scoreLE :=
            List.mem_of_mem_take hr
          have hr3 : r ∈ results := List.mem_mergeSort.mp hr2
          rcases mapExcept_ok_mem hmap r hr3 with ⟨m, hm, hfm⟩
          have hmemb : m ∈ getEmbeddedMemories db := List.mem_of_mem_filter hm
          have hprops := List.of_mem_filter hmemb
          simp only [Bool.and_eq_true, beq_iff_eq] at hprops
          have hrm : r.memory = m := by
            rw [scoreMemory] at hfm
            rcases hcs : cosineSimilarity sqrt q (m.embedding.getD [])
              with e | v
            · rw [hcs] at hfm
              exact absurd hfm (by simp)
            · rw [hcs] at hfm
              simp only [Except.ok.injEq] at hfm
              rw [← hfm]
          rw [hrm]
          exact ⟨List.mem_of_mem_filter hmemb, hprops.1, hprops.2⟩

/-- A store with one pending record only: nothing is indexed yet. -/
def c7PendingOnly : DatabaseState ℚ :=
  { memories := [mkPendingRecord "p" 0 "u" "d"], version := "1.0.0" }

/-- Witness for C7: on a store with only a pending record the candidate set
is empty and retrieval returns `.ok []` even when the provider call would
fail; and from `.ok l` every returned record is completed. -/
theorem c7_candidate_selection_witness :
    getEmbeddedMemories c7PendingOnly = [] ∧
      retrieveTopK (fun x : ℚ => x) (.error "provider down") c7PendingOnly
        0 3 = .ok [] ∧
      ∀ x ∈ ([] : List (RetrievalResult ℚ)), x.memory ∈ c7PendingOnly.memories ∧
        x.memory.embeddingStatus = .completed ∧ x.memory.embedding.isSome :=
  ⟨by decide,
    (c7_candidate_selection (fun x : ℚ => x) c7PendingOnly 0 3).2.1
      (by decide) (.error "provider down"),
    (c7_candidate_selection (fun x : ℚ => x) c7PendingOnly 0 3).2.2
      (.error "provider down") []
      ((c7_candidate_selection (fun x : ℚ => x) c7PendingOnly 0 3).2.1
        (by decide) (.error "provider down"))⟩

/-! ## C10: retrieval is read-only -/

/-- C10: `retrieveTopK` against a live store is a pure query: the session
after the call is exactly the session before it (same records, same
pending/save bookkeeping — no persistence write is scheduled), and the
returned value is the one computed by the pure model. -/
theorem c10_retrieve_readonly [LinearOrderedField α] (sqrt : α → α)
    (embedResult : Except String (List α)) (now : α) (k : Nat)
    (s : DbSession α) :
    retrieveTopKS sqrt embedResult now k s =
        (retrieveTopK sqrt embedResult s.state now k, s) ∧
      (retrieveTopKS sqrt embedResult now k s).2.state = s.state ∧
      (retrieveTopKS sqrt embedResult now k s).2.saveCount = s.saveCount := by
  have h : retrieveTopKS sqrt embedResult now k s =
      (retrieveTopK sqrt embedResult s.state now k, s) := by
    rw [retrieveTopKS.eq_def, retrieveTopK.eq_def, getEmbeddedMemoriesS]
    by_cases hlen : (getEmbeddedMemories s.state).length = 0
    · rw [if_pos hlen, if_pos hlen]
    · rw [if_neg hlen, if_neg hlen]
      rcases embedResult with e | q
      · rfl
      · rcases hmap : mapExcept (scoreMemory sqrt q now)
            ((getEmbeddedMemories s.state).filter
              (fun m => m.embedding.isSome)) with e | results
        · simp only [hmap]
        · simp only [hmap]
  exact ⟨h, by rw [h], by rw [h]⟩

/-! ## C8: algebraic identities of `cosineSimilarity` -/

@[simp] theorem sumProd_nil [LinearOrderedField α] (b : List α) :
    sumProd ([] : List α) b = 0 := rfl

@[simp] theorem sumProd_cons [LinearOrderedField α] (x y : α)
    (xs ys : List α) :
    sumProd (x :: xs) (y :: ys) = x * y + sumProd xs ys := by
  simp [sumProd]

/-- The squared norm accumulator is nonnegative. -/
theorem sumProd_self_nonneg [LinearOrderedField α] (v : List α) :
    0 ≤ sumProd v v := by
  induction v with
  | nil => simp
  | cons x xs ih =>
      rw [sumProd_cons]
      exact add_nonneg (mul_self_nonneg x) ih

/-- Negating the second vector negates the accumulator. -/
theorem sumProd_neg_right [LinearOrderedField α] (v : List α) :
    sumProd v (v.map (fun x => -x)) = -sumProd v v := by
  induction v with
  | nil => simp
  | cons x xs ih =>
      simp only [List.map_cons, sumProd_cons, ih]
      ring

/-- Negating a vector keeps its squared norm. -/
theorem sumProd_neg_self [LinearOrderedField α] (v : List α) :
    sumProd (v.map (fun x => -x)) (v.map (fun x => -x)) = sumProd v v := by
  induction v with
  | nil => simp
  | cons x xs ih =>
      simp only [List.map_cons, sumProd_cons, ih]
      ring

/-- C8: with the real `Math.sqrt`, `cosineSimilarity(v, v) = 1` and
`cosineSimilarity(v, -v) = -1` for every vector `v` of nonzero norm, and for
equal-length vectors where either factor has zero norm the function returns
`0` (an `.ok` value — no error is raised). -/
theorem c8_cosine_identities (v a b : List ℝ)  :
    (Real.sqrt (sumProd v v) ≠ 0 →
      cosineSimilarity Real.sqrt v v = .ok 1 ∧
        cosineSimilarity Real.sqrt v (v.map (fun x => -x)) = .ok (-1)) ∧
      (a.length = b.length → sumProd a a = 0 ∨ sumProd b b = 0 →
        cosineSimilarity Real.sqrt a b = .ok 0) := by
  constructor
  · intro hv
    have hs0 : sumProd v v ≠ 0 := by
      intro h
      rw [h, Real.sqrt_zero] at hv
      exact hv rfl
    have hsq : Real.sqrt (sumProd v v) * Real.sqrt (sumProd v v) =
        sumProd v v := Real.mul_self_sqrt (sumProd_self_nonneg v)
    constructor
    · rw [cosineSimilarity, if_neg (by simp)]
      rw [cosValue]
      rw [if_neg (by simpa using hv)]
      rw [hsq, div_self hs0]
    · rw [cosineSimilarity, if_neg (by simp)]
      rw [cosValue]
      rw [sumProd_neg_self, sumProd_neg_right]
      rw [if_neg (by simpa using hv)]
      rw [hsq, neg_div, div_self hs0]
  · intro hlen hzero
    rw [cosineSimilarity, if_neg (by simp [hlen])]
    rw [cosValue]
    have hor : Real.sqrt (sumProd a a) = 0 ∨ Real.sqrt (sumProd b b) = 0 := by
      rcases hzero with h | h
      · exact Or.inl (by rw [h, Real.sqrt_zero])
      · exact Or.inr (by rw [h, Real.sqrt_zero])
    rw [if_pos hor]

/-- Witness for C8 at `v = [1]`, `a = b = [0]`. -/
theorem c8_cosine_identities_witness :
    (cosineSimilarity Real.sqrt [(1 : ℝ)] [1] = .ok 1 ∧
        cosineSimilarity Real.sqrt [(1 : ℝ)]
          (([(1 : ℝ)]).map (fun x => -x)) = .ok (-1)) ∧
      cosineSimilarity Real.sqrt [(0 : ℝ)] [0] = .ok 0 :=
  ⟨(c8_cosine_identities [1] [0] [0]).1 (by simp),
    (c8_cosine_identities [1] [0] [0]).2 rfl (Or.inl (by simp))⟩

/-! ## C3: ranking and ordering of `retrieveTopK` -/

/-- The combined score `retrieveTopK` assigns to a candidate:
raw cosine similarity minus `0.01 * hoursOld`. -/
def candScore [LinearOrderedField α] (sqrt : α → α) (q : List α) (now : α)
    (m : MemoryRecord α) : α :=
  cosValue sqrt q (m.embedding.getD []) - (1 / 100) * hoursOld now m.time

/-- The scored entry `retrieveTopK` builds for a candidate. -/
def scoreRecord [LinearOrderedField α] (sqrt : α → α) (q : List α) (now : α)
    (m : MemoryRecord α) : ScoredMemory α :=
  { memory := m, similarity := cosValue sqrt q (m.embedding.getD [])
    combinedScore := candScore sqrt q now m }

/-- The sort comparator of `retrieveTopK`, expressed on the candidate
records themselves. -/
def memLE [LinearOrderedField α] (sqrt : α → α) (q : List α) (now : α)
    (a b : MemoryRecord α) : Bool :=
  decide (candScore sqrt q now b ≤ candScore sqrt q now a)

/-- The value `retrieveTopK` returns on a nonempty candidate set without
provider or dimension errors: the stable descending sort of the candidates
by combined score, cut to `k`, each entry carrying its raw similarity. -/
def rankedResults [LinearOrderedField α] (sqrt : α → α) (q : List α)
    (db : DatabaseState α) (now : α) (k : Nat) : List (RetrievalResult α) :=
  (((getEmbeddedMemories db).mergeSort (memLE sqrt q now)).take k).map
    (fun m => { memory := m
                similarity := cosValue sqrt q (m.embedding.getD []) })

theorem memLE_trans [LinearOrderedField α] (sqrt : α → α) (q : List α)
    (now : α) : ∀ a b c : MemoryRecord α, memLE sqrt q now a b →
    memLE sqrt q now b c → memLE sqrt q now a c := by
  intro a b c hab hbc
  simp only [memLE, decide_eq_true_eq] at hab hbc ⊢
  exact le_trans hbc hab

theorem memLE_total [LinearOrderedField α] (sqrt : α → α) (q : List α)
    (now : α) : ∀ a b : MemoryRecord α,
    memLE sqrt q now a b || memLE sqrt q now b a := by
  intro a b
  simp only [memLE]
  rcases le_total (candScore sqrt q now b) (candScore sqrt q now a) with h | h
  · simp [h]
  · simp [h]

/-- On a candidate whose embedding has the query's dimension, the scoring
step succeeds with the raw similarity and the penalized combined score. -/
theorem scoreMemory_ok [LinearOrderedField α] (sqrt : α → α) (q : List α)
    (now : α) (m : MemoryRecord α)
    (hlen : (m.embedding.getD []).length = q.length) :
    scoreMemory sqrt q now m = .ok (scoreRecord sqrt q now m) := by
  have hcs : cosineSimilarity sqrt q (m.embedding.getD []) =
      .ok (cosValue sqrt q (m.embedding.getD [])) := by
    rw [cosineSimilarity, if_neg (by rw [hlen]; simp)]
  simp only [scoreMemory, hcs]
  rfl

/-- In a duplicate-free append, a two-element sublist whose elements both
lie in the left part is a sublist of the left part. -/
theorem pair_sublist_append_left {β : Type} {a b : β} {l₁ l₂ : List β}
    (hnd : (l₁ ++ l₂).Nodup) (h : List.Sublist [a, b] (l₁ ++ l₂))
    (ha : a ∈ l₁) (hb : b ∈ l₁) : List.Sublist [a, b] l₁ := by
  rcases List.sublist_append_iff.mp h with ⟨r₁, r₂, heq, h₁, h₂⟩
  have hdisj := (List.nodup_append.mp hnd).2.2
  rcases r₁ with _ | ⟨x, r₁⟩
  · rw [List.nil_append] at heq
    subst heq
    exact (hdisj ha (h₂.subset (List.mem_cons_self a [b]))).elim
  · rcases r₁ with _ | ⟨y, r₁⟩
    · rw [List.cons_append, List.nil_append] at heq
      injection heq with hax hbr
      subst hax
      subst hbr
      exact (hdisj hb (h₂.subset (List.mem_cons_self b []))).elim
    · rw [List.cons_append, List.cons_append] at heq
      injection heq with hax heq2
      injection heq2 with hby heq3
      rcases List.append_eq_nil.mp heq3.symm with ⟨hr1, -⟩
      subst hax
      subst hby
      subst hr1
      exact h₁

/-- C3 (amended): on a nonempty candidate set (without dimension errors,
with the registry's distinct records), `retrieveTopK` returns the first `k`
candidates of the *stable* descending sort by
`cosineSimilarity(query, candidate) - 0.01 * ageHours`, each carrying its
raw cosine similarity (not the penalized score): the result length is
`min k (number of candidates)`, the combined scores are in descending
order, every candidate left out scores no higher than every returned one,
and candidates with *equal* combined scores keep their capture order — the
earlier-captured record comes first, not the more recent one as claimed
(see the counterexample). -/
theorem c3_ranking_amended [LinearOrderedField α] (sqrt : α → α)
    (q : List α) (db : DatabaseState α) (now : α) (k : Nat)
    (hne : getEmbeddedMemories db ≠ [])
    (hlen : ∀ m ∈ getEmbeddedMemories db,
      (m.embedding.getD []).length = q.length)
    (hnd : (getEmbeddedMemories db).Nodup) :
    retrieveTopK sqrt (.ok q) db now k =
        .ok (rankedResults sqrt q db now k) ∧
      (rankedResults sqrt q db now k).length =
        min k (getEmbeddedMemories db).length ∧
      (∀ x ∈ rankedResults sqrt q db now k,
        x.memory ∈ getEmbeddedMemories db ∧
          x.similarity = cosValue sqrt q (x.memory.embedding.getD [])) ∧
      (rankedResults sqrt q db now k).Pairwise
        (fun x y => candScore sqrt q now y.memory ≤
          candScore sqrt q now x.memory) ∧
      List.Perm
        ((rankedResults sqrt q db now k).map (·.memory) ++
          ((getEmbeddedMemories db).mergeSort (memLE sqrt q now)).drop k)
        (getEmbeddedMemories db) ∧
      (∀ y ∈ ((getEmbeddedMemories db).mergeSort (memLE sqrt q now)).drop k,
        ∀ x ∈ rankedResults sqrt q db now k,
          candScore sqrt q now y ≤ candScore sqrt q now x.memory) ∧
      (∀ a b, List.Sublist [a, b] (getEmbeddedMemories db) →
        candScore sqrt q now b ≤ candScore sqrt q now a →
        a ∈ (rankedResults sqrt q db now k).map (·.memory) →
        b ∈ (rankedResults sqrt q db now k).map (·.memory) →
        List.Sublist [a, b]
          ((rankedResults sqrt q db now k).map (·.memory))) := by
  have hmapkey : (rankedResults sqrt q db now k).map (·.memory) =
      ((getEmbeddedMemories db).mergeSort (memLE sqrt q now)).take k := by
    rw [rankedResults, List.map_map]
    exact List.map_id _
  have hsorted := List.sorted_mergeSort (memLE_trans sqrt q now)
    (memLE_total sqrt q now) (getEmbeddedMemories db)
  refine ⟨?_, ?_, ?_, ?_, ?_, ?_, ?_⟩
  · -- the returned value
    rw [retrieveTopK.eq_def,
      if_neg (by simp only [List.length_eq_zero]; exact hne)]
    have hmapex : mapExcept (scoreMemory sqrt q now)
        ((getEmbeddedMemories db).filter (fun m => m.embedding.isSome)) =
        .ok ((getEmbeddedMemories db).map (scoreRecord sqrt q now)) := by
      rw [getEmbeddedMemories_filter_isSome]
      exact mapExcept_ok_of_all
        (fun m hm => scoreMemory_ok sqrt q now m (hlen m hm))
    simp only [hmapex]
    rw [← @List.map_mergeSort (MemoryRecord α) (ScoredMemory α)
      (memLE sqrt q now) scoreLE (scoreRecord sqrt q now)
      (getEmbeddedMemories db) (fun a _ b _ => rfl)]
    rw [rankedResults, ← List.map_take, List.map_map]
    rfl
  · simp [rankedResults]
  · intro x hx
    rcases List.mem_map.mp hx with ⟨m, hm, rfl⟩
    exact ⟨List.mem_mergeSort.mp (List.mem_of_mem_take hm), rfl⟩
  · rw [rankedResults]
    rw [List.pairwise_map]
    have htake := hsorted.sublist
      (List.take_sublist k ((getEmbeddedMemories db).mergeSort
        (memLE sqrt q now)))
    exact htake.imp (fun h => by simpa [memLE] using h)
  · rw [hmapkey, List.take_append_drop]
    exact List.mergeSort_perm (getEmbeddedMemories db) (memLE sqrt q now)
  · intro y hy x hx
    have hxt : x.memory ∈ ((getEmbeddedMemories db).mergeSort
        (memLE sqrt q now)).take k := by
      rw [← hmapkey]
      exact List.mem_map_of_mem (·.memory) hx
    have hpw : List.Pairwise (fun a b => memLE sqrt q now a b)
        (((getEmbeddedMemories db).mergeSort (memLE sqrt q now)).take k ++
          ((getEmbeddedMemories db).mergeSort (memLE sqrt q now)).drop k) := by
      rw [List.take_append_drop]
      exact hsorted
    have := (List.pairwise_append.mp hpw).2.2 x.memory hxt y hy
    simpa [memLE] using this
  · intro a b hsub hscore ha hb
    rw [hmapkey] at ha hb ⊢
    have hsortnd : (((getEmbeddedMemories db).mergeSort
        (memLE sqrt q now))).Nodup :=
      (List.mergeSort_perm (getEmbeddedMemories db)
        (memLE sqrt q now)).nodup_iff.mpr hnd
    have hpair : List.Sublist [a, b]
        ((getEmbeddedMemories db).mergeSort (memLE sqrt q now)) :=
      List.pair_sublist_mergeSort (memLE_trans sqrt q now)
        (memLE_total sqrt q now) (by simpa [memLE] using hscore) hsub
    exact @pair_sublist_append_left (MemoryRecord α) a b
      (((getEmbeddedMemories db).mergeSort (memLE sqrt q now)).take k)
      (((getEmbeddedMemories db).mergeSort (memLE sqrt q now)).drop k)
      (by rw [List.take_append_drop]; exact hsortnd)
      (by rw [List.take_append_drop]; exact hpair) ha hb

/-- Counterexample data: the earlier capture, at time `0`, indexed with
embedding `[3, 4]` (cosine similarity `3/5` against the query `[1, 0]`,
age 60 hours at query time, combined score `3/5 - 0.6 = 0`). -/
def c3RecB : MemoryRecord ℝ :=
  { id := "B", time := 0, imageUrl := "uB", description := "dB"
    embedding := some [3, 4], embeddingStatus := .completed
    createdAt := 0, embeddedAt := some 0 }

/-- Counterexample data: the more recent capture, at query time, indexed
with the zero embedding (similarity `0`, age 0, combined score `0`). -/
def c3RecA : MemoryRecord ℝ :=
  { id := "A", time := 216000000, imageUrl := "uA", description := "dA"
    embedding := some [0, 0], embeddingStatus := .completed
    createdAt := 216000000, embeddedAt := some 216000000 }

/-- Two completed records in capture order: old `B`, then recent `A`. -/
def c3Db : DatabaseState ℝ :=
  { memories := [c3RecB, c3RecA], version := "1.0.0" }

theorem c3_sqrt_twentyfive : Real.sqrt 25 = 5 := by
  rw [show (25 : ℝ) = 5 ^ 2 by norm_num,
    Real.sqrt_sq (by norm_num : (0 : ℝ) ≤ 5)]

theorem c3_cosB : cosValue Real.sqrt [(1 : ℝ), 0] [3, 4] = 3 / 5 := by
  simp only [cosValue]
  rw [show sumProd [(1 : ℝ), 0] [1, 0] = 1 by norm_num,
    show sumProd [(3 : ℝ), 4] [3, 4] = 25 by norm_num,
    show sumProd [(1 : ℝ), 0] [3, 4] = 3 by norm_num,
    Real.sqrt_one, c3_sqrt_twentyfive]
  rw [if_neg (by norm_num)]
  norm_num

theorem c3_cosA : cosValue Real.sqrt [(1 : ℝ), 0] [0, 0] = 0 := by
  simp only [cosValue]
  rw [show sumProd [(0 : ℝ), 0] [0, 0] = 0 by norm_num, Real.sqrt_zero]
  rw [if_pos (Or.inr rfl)]

/-- C3 counterexample: the tie-breaking direction in the claim is wrong.
In `c3Db` both candidates have combined score `0` — a tie — and record `A`
is the more recently captured one, yet `retrieveTopK` returns the *older*
record `B` first: the JavaScript sort is stable and the comparator returns
`0` on ties, so equal-score candidates stay in capture order instead of
being reordered toward the more recent one.  (The result also shows each
entry carrying its raw similarity, `3/5` and `0`, not the penalized
score.) -/
theorem c3_counterexample :
    retrieveTopK Real.sqrt (.ok [1, 0]) c3Db 216000000 2 =
        .ok [{ memory := c3RecB, similarity := 3 / 5 },
          { memory := c3RecA, similarity := 0 }] ∧
      candScore Real.sqrt [1, 0] 216000000 c3RecA =
        candScore Real.sqrt [1, 0] 216000000 c3RecB ∧
      c3RecB.time < c3RecA.time := by
  have hcands : getEmbeddedMemories c3Db = [c3RecB, c3RecA] := rfl
  have hscoreB : candScore Real.sqrt [1, 0] 216000000 c3RecB = 0 := by
    rw [candScore, show c3RecB.embedding.getD [] = [3, 4] from rfl, c3_cosB]
    rw [show c3RecB.time = 0 from rfl]
    rw [hoursOld]
    norm_num
  have hscoreA : candScore Real.sqrt [1, 0] 216000000 c3RecA = 0 := by
    rw [candScore, show c3RecA.embedding.getD [] = [0, 0] from rfl, c3_cosA]
    rw [show c3RecA.time = 216000000 from rfl]
    rw [hoursOld]
    norm_num
  refine ⟨?_, by rw [hscoreA, hscoreB], by norm_num [c3RecA, c3RecB]⟩
  have hsB : scoreMemory Real.sqrt [1, 0] 216000000 c3RecB =
      .ok { memory := c3RecB, similarity := 3 / 5, combinedScore := 0 } := by
    rw [scoreMemory_ok Real.sqrt [1, 0] 216000000 c3RecB rfl]
    rw [scoreRecord, show c3RecB.embedding.getD [] = [3, 4] from rfl, c3_cosB,
      hscoreB]
  have hsA : scoreMemory Real.sqrt [1, 0] 216000000 c3RecA =
      .ok { memory := c3RecA, similarity := 0, combinedScore := 0 } := by
    rw [scoreMemory_ok Real.sqrt [1, 0] 216000000 c3RecA rfl]
    rw [scoreRecord, show c3RecA.embedding.getD [] = [0, 0] from rfl, c3_cosA,
      hscoreA]
  have hmapex : mapExcept (scoreMemory Real.sqrt [1, 0] 216000000)
      ((getEmbeddedMemories c3Db).filter (fun m => m.embedding.isSome)) =
      .ok [{ memory := c3RecB, similarity := 3 / 5, combinedScore := 0 },
        { memory := c3RecA, similarity := 0, combinedScore := 0 }] := by
    rw [getEmbeddedMemories_filter_isSome, hcands]
    simp only [mapExcept, hsB, hsA]
  have hsort : List.mergeSort
      [({ memory := c3RecB, similarity := 3 / 5, combinedScore := 0 } :
          ScoredMemory ℝ),
        { memory := c3RecA, similarity := 0, combinedScore := 0 }]
      scoreLE =
      [{ memory := c3RecB, similarity := 3 / 5, combinedScore := 0 },
        { memory := c3RecA, similarity := 0, combinedScore := 0 }] :=
    List.mergeSort_of_sorted
      (List.pairwise_pair.mpr (by simp [scoreLE]))
  rw [retrieveTopK.eq_def, if_neg (by rw [hcands]; simp)]
  simp only [hmapex, hsort]
  rfl

/-- A one-candidate store over `ℚ` for the witness. -/
def c3WitDb : DatabaseState ℚ :=
  { memories := [{ id := "m", time := 0, imageUrl := "u", description := "d"
                   embedding := some [1], embeddingStatus := .completed
                   createdAt := 0, embeddedAt := some 0 }]
    version := "1.0.0" }

/-- Witness for C3 at a concrete store (scalar field `ℚ`, identity in place
of `Math.sqrt` — the theorem holds for every square-root function). -/
theorem c3_ranking_amended_witness :
    getEmbeddedMemories c3WitDb ≠ [] ∧
      (∀ m ∈ getEmbeddedMemories c3WitDb,
        (m.embedding.getD []).length = [(1 : ℚ)].length) ∧
      (getEmbeddedMemories c3WitDb).Nodup ∧
      retrieveTopK (fun x : ℚ => x) (.ok [1]) c3WitDb 0 1 =
        .ok (rankedResults (fun x : ℚ => x) [1] c3WitDb 0 1) :=
  ⟨by decide, by decide, by decide,
    (c3_ranking_amended (fun x : ℚ => x) [1] c3WitDb 0 1 (by decide)
      (by decide) (by decide)).1⟩

end PardusAI
